import Mathlib

/-!
Verification of the comment-thread core of the logos-blogs repository.

The development shallowly embeds the comment storage layer of the
repository: the in-memory variant (`MemStorage` in `server/storage.ts`)
and the database-backed variant (`DatabaseStorage`).  JavaScript `Map`
collections are modelled as lists of records keyed by their `id` field
(the code always stores a record under its own id); `Date` timestamps
are modelled as natural numbers; `async` methods that can only read are
plain functions; the unbounded recursions of the source (which can
diverge on pathological stores) are embedded with an explicit fuel
argument, returning `none` exactly when the source would fail to
terminate; the fuel supplied at the top level is sufficient for every
store the source terminates on.  JavaScript truthiness tests on
`parentId` (`!comment.parentId`, `if (parentId)`) are embedded exactly:
`null`/`undefined` and `0` are falsy.
-/

/-- A row of the `users` table (`shared/schema.ts`). -/
structure User where
  id : Nat
  username : String
  password : String
  name : String
  email : String
  role : String
  bio : Option String
  avatar : Option String
  createdAt : Nat
deriving Repr, DecidableEq

/-- A row of the `comments` table (`shared/schema.ts`): `parentId` is a
nullable self-reference, `none` marks a top-level comment. -/
structure Comment where
  id : Nat
  content : String
  authorId : Nat
  articleId : Nat
  parentId : Option Nat
  createdAt : Nat
deriving Repr, DecidableEq

/-- A row of the `articles` table (`shared/schema.ts`). -/
structure Article where
  id : Nat
  title : String
  content : String
  excerpt : String
  featuredImage : Option String
  authorId : Nat
  published : Bool
  readingTime : Nat
  createdAt : Nat
  updatedAt : Nat
deriving Repr, DecidableEq

/-- A row of the `tags` table. -/
structure Tag where
  id : Nat
  name : String
  color : String
deriving Repr, DecidableEq

/-- A row of the `article_tags` junction table. -/
structure ArticleTag where
  articleId : Nat
  tagId : Nat
deriving Repr, DecidableEq

/-- A row of the `bookmarks` table. -/
structure Bookmark where
  id : Nat
  userId : Nat
  articleId : Nat
  createdAt : Nat
deriving Repr, DecidableEq

/-- A row of the `follows` table. -/
structure Follow where
  followerId : Nat
  followingId : Nat
  createdAt : Nat
deriving Repr, DecidableEq

/-- The `CommentWithAuthor` view type (`shared/schema.ts`): a comment
together with its resolved author and its (optional) list of reply
nodes.  `author` is `Option User` because both storage variants can in
fact attach `undefined` there (the `author!` assertion in `MemStorage`
and the destructured empty query result in `DatabaseStorage`);
`replies` is `Option` because `MemStorage.buildCommentTree` genuinely
omits the field on leaves. -/
inductive CommentWithAuthor : Type where
  | mk (id : Nat) (content : String) (authorId : Nat) (articleId : Nat)
      (parentId : Option Nat) (createdAt : Nat)
      (author : Option User) (replies : Option (List CommentWithAuthor)) :
      CommentWithAuthor

namespace CommentWithAuthor

def id : CommentWithAuthor → Nat
  | mk i _ _ _ _ _ _ _ => i

def content : CommentWithAuthor → String
  | mk _ c _ _ _ _ _ _ => c

def authorId : CommentWithAuthor → Nat
  | mk _ _ a _ _ _ _ _ => a

def articleId : CommentWithAuthor → Nat
  | mk _ _ _ a _ _ _ _ => a

def parentId : CommentWithAuthor → Option Nat
  | mk _ _ _ _ p _ _ _ => p

def createdAt : CommentWithAuthor → Nat
  | mk _ _ _ _ _ t _ _ => t

def author : CommentWithAuthor → Option User
  | mk _ _ _ _ _ _ a _ => a

def replies : CommentWithAuthor → Option (List CommentWithAuthor)
  | mk _ _ _ _ _ _ _ r => r

end CommentWithAuthor

/-- JavaScript truthiness of a nullable number: `null`/`undefined` and
`0` are falsy. -/
def truthyOpt : Option Nat → Bool
  | none => false
  | some n => n != 0

/-- Truthiness of `comment.parentId`, as tested by
`comments.filter(comment => !comment.parentId)` and
`comments.filter(comment => comment.parentId)` in
`MemStorage.buildCommentTree`. -/
def truthyParent (c : Comment) : Bool :=
  truthyOpt c.parentId

/-- The ordered children list `repliesByParentId[pid]` of
`MemStorage.buildCommentTree`: the non-root comments (truthy
`parentId`) whose `parentId` equals `pid`, in input order. -/
def childrenOf (all : List Comment) (pid : Nat) : List Comment :=
  all.filter (fun c => truthyParent c && c.parentId == some pid)

/-- Semantics of `Map.get` on a JS map keyed by id, as a list lookup. -/
def lookupUser (us : List User) (uid : Nat) : Option User :=
  us.find? (fun u => u.id == uid)

/-- Effect-free embedding of JavaScript `Array.prototype.map` with a
callback that can fail (used to thread the fuel-monitored recursion of
the tree builders through a sibling list). -/
def mapOption (f : α → Option β) : List α → Option (List β)
  | [] => some []
  | a :: l =>
    match f a, mapOption f l with
    | some b, some bs => some (b :: bs)
    | _, _ => none

/-- The inner `buildTree` closure of `MemStorage.buildCommentTree`
(`server/storage.ts` lines 534-548), with explicit fuel bounding the
recursion depth.  For each comment of the current sibling list it
resolves the author (`this.usersData.get(comment.authorId)!`), looks up
the children list, recurses when that list is non-empty and omits
`replies` otherwise. -/
def buildTreeAux (us : List User) (all : List Comment) :
    Nat → List Comment → Option (List CommentWithAuthor)
  | 0, _ => none
  | fuel + 1, lst =>
    mapOption
      (fun c =>
        if childrenOf all c.id = [] then
          some (CommentWithAuthor.mk c.id c.content c.authorId c.articleId
            c.parentId c.createdAt (lookupUser us c.authorId) none)
        else
          (buildTreeAux us all fuel (childrenOf all c.id)).map
            (fun rs => CommentWithAuthor.mk c.id c.content c.authorId
              c.articleId c.parentId c.createdAt (lookupUser us c.authorId)
              (some rs)))
      lst

/-- Embedding of `MemStorage.buildCommentTree` (`server/storage.ts` lines 519-551):
partition the input into roots (falsy `parentId`) and an index of
children by parent id, then materialize the roots recursively.  The
supplied fuel `comments.length + 1` exceeds the depth of any chain the
source terminates on, so `none` is returned exactly when the source
recursion would not terminate. -/
def buildCommentTree (us : List User) (comments : List Comment) :
    Option (List CommentWithAuthor) :=
  buildTreeAux us comments (comments.length + 1)
    (comments.filter (fun c => !truthyParent c))

/-- Embedding of `DatabaseStorage.getCommentReplies` (the recursive helper of the
database variant of `buildCommentTree`): the direct replies of
`parentId` are the comments whose `parentId` column equals it (SQL
equality, so a `NULL` parent never matches); every reply node carries a
`replies` field, even when the nested list is empty.  Fuel bounds the
recursion depth as above. -/
def getCommentReplies (us : List User) (allComments : List Comment) :
    Nat → Nat → Option (List CommentWithAuthor)
  | 0, _ => none
  | fuel + 1, parentId =>
    mapOption
      (fun reply =>
        (getCommentReplies us allComments fuel reply.id).map
          (fun nestedReplies => CommentWithAuthor.mk reply.id reply.content
            reply.authorId reply.articleId reply.parentId reply.createdAt
            (lookupUser us reply.authorId) (some nestedReplies)))
      (allComments.filter (fun c => c.parentId == some parentId))

/-- Embedding of `DatabaseStorage.buildCommentTree`: materialize the top-level
comments (falsy `parentId`), resolving each author by a one-row query
and attaching the (possibly empty) reply list of every node. -/
def buildCommentTreeDb (us : List User) (commentsData : List Comment) :
    Option (List CommentWithAuthor) :=
  mapOption
    (fun c =>
      (getCommentReplies us commentsData (commentsData.length + 1) c.id).map
        (fun replies => CommentWithAuthor.mk c.id c.content c.authorId
          c.articleId c.parentId c.createdAt (lookupUser us c.authorId)
          (some replies)))
    (commentsData.filter (fun c => !truthyParent c))

/-- Embedding of `MemStorage.deleteComment` (`server/storage.ts` lines 389-391):
`this.commentsData.delete(id)` removes the single entry stored under
`id` and returns whether it was present.  Descendant comments are not
touched. -/
def memDeleteComment (commentsData : List Comment) (id : Nat) :
    List Comment × Bool :=
  (commentsData.filter (fun c => c.id != id),
    commentsData.any (fun c => c.id == id))

/-- The sequential `for (const child of childComments) await
this.deleteComment(child.id)` loop of `DatabaseStorage.deleteComment`,
threading the evolving store through a given deletion step. -/
def runDeletes (del : List Comment → Nat → Option (List Comment × Bool)) :
    List Comment → List Nat → Option (List Comment)
  | cs, [] => some cs
  | cs, cid :: rest =>
    match del cs cid with
    | none => none
    | some (cs1, _) => runDeletes del cs1 rest

/-- Embedding of `DatabaseStorage.deleteComment` (recursive cascade): select the
direct children of `id` from the current store, recursively delete each
of them, then delete the rows with id `id` and report whether any such
row was present at that point.  Fuel bounds the recursion depth; `none`
marks the non-termination of the source on stores with parent cycles
through `id`. -/
def dbDeleteCommentAux : Nat → List Comment → Nat → Option (List Comment × Bool)
  | 0, _, _ => none
  | fuel + 1, cs, id =>
    match
      runDeletes (fun cs' cid => dbDeleteCommentAux fuel cs' cid) cs
        ((cs.filter (fun c => c.parentId == some id)).map (fun c => c.id)) with
    | none => none
    | some cs2 =>
      some (cs2.filter (fun c => c.id != id), cs2.any (fun c => c.id == id))

/-- Embedding of `DatabaseStorage.deleteComment`, with fuel sufficient for every
acyclic store. -/
def dbDeleteComment (cs : List Comment) (id : Nat) :
    Option (List Comment × Bool) :=
  dbDeleteCommentAux (cs.length + 1) cs id

/-- The fields of `MemStorage` (`server/storage.ts`): each JS `Map` is
modelled as the list of its values in insertion order (the code always
keys a record by its own `id`), together with the id counters. -/
structure Storage where
  usersData : List User
  articlesData : List Article
  tagsData : List Tag
  articleTagsData : List ArticleTag
  commentsData : List Comment
  bookmarksData : List Bookmark
  followsData : List Follow
  userId : Nat
  articleId : Nat
  tagId : Nat
  commentId : Nat
  bookmarkId : Nat
deriving Repr, DecidableEq

/-- Semantics of `Map.set(id, v)` on a map keyed by id: replace the entry with that
key in place, or append a new one. -/
def mapSetComment (l : List Comment) (c : Comment) : List Comment :=
  if l.any (fun x => x.id == c.id) then
    l.map (fun x => if x.id == c.id then c else x)
  else l ++ [c]

/-- The `InsertComment` payload (`insertCommentSchema`): the comment
columns minus `id` and `createdAt`. -/
structure InsertComment where
  content : String
  authorId : Nat
  articleId : Nat
  parentId : Option Nat
deriving Repr, DecidableEq

/-- Embedding of `MemStorage.createComment`: assign the next id, stamp the current
time (passed here as the explicit `now` argument standing for
`new Date()`), store, and return the new comment. -/
def createComment (st : Storage) (now : Nat) (ic : InsertComment) :
    Storage × Comment :=
  let id := st.commentId
  let newComment : Comment :=
    ⟨id, ic.content, ic.authorId, ic.articleId, ic.parentId, now⟩
  ({ st with
      commentsData := mapSetComment st.commentsData newComment,
      commentId := id + 1 },
    newComment)

/-- Embedding of `MemStorage.getArticleById`: `undefined` when the id is absent from
the articles map (the attached author/tag relations are irrelevant to
the routes verified here, which only test presence, but are modelled by
`attachArticleRelations` below). -/
def getArticleById (st : Storage) (id : Nat) : Option Article :=
  st.articlesData.find? (fun a => a.id == id)

/-- The `ArticleWithAuthor` view type. -/
structure ArticleWithAuthor extends Article where
  author : Option User
  tags : List Tag
deriving Repr, DecidableEq

/-- Embedding of `MemStorage.attachArticleRelations`: attach the (possibly missing,
`author!`) author and the resolved tag list to each article. -/
def attachArticleRelations (st : Storage) (articles : List Article) :
    List ArticleWithAuthor :=
  articles.map (fun article =>
    { article with
      author := lookupUser st.usersData article.authorId,
      tags := ((st.articleTagsData.filter
          (fun rel => rel.articleId == article.id)).map
            (fun rel => rel.tagId)).filterMap
        (fun tid => st.tagsData.find? (fun t => t.id == tid)) })

/-- An HTTP response of the comment routes: the status code sent, and
the created comment for a 201. -/
structure RouteResponse where
  status : Nat
  created : Option Comment
deriving Repr, DecidableEq

/-- The handler of `POST /api/articles/:articleId/comments`
(`server/routes.ts` lines 587-629; the `DatabaseStorage` variant at
lines 1269-1313 performs the same checks with the parent looked up by a
database query): 404 when the article does not exist; when `parentId`
is truthy, 404 when no parent comment with that id exists and 400 when
the parent belongs to a different article; otherwise persist and answer
201 with the new comment.  A falsy `parentId` (absent or `0`) skips the
parent checks entirely. -/
def postComment (st : Storage) (now : Nat) (articleIdParam : Nat)
    (authorId : Nat) (content : String) (parentId : Option Nat) :
    Storage × RouteResponse :=
  match getArticleById st articleIdParam with
  | none => (st, ⟨404, none⟩)
  | some _ =>
    if truthyOpt parentId then
      match st.commentsData.find? (fun c => some c.id == parentId) with
      | none => (st, ⟨404, none⟩)
      | some parentComment =>
        if parentComment.articleId != articleIdParam then (st, ⟨400, none⟩)
        else
          let (st', c) :=
            createComment st now ⟨content, authorId, articleIdParam, parentId⟩
          (st', ⟨201, some c⟩)
    else
      let (st', c) :=
        createComment st now ⟨content, authorId, articleIdParam, parentId⟩
      (st', ⟨201, some c⟩)

/-- Embedding of `MemStorage.getArticleComments` as a state transformer: filter the
comments map to the article, sort ascending by `createdAt` (the copy
made by `Array.from` is sorted, the store itself is never written), and
build the tree.  The returned state is the state the method leaves
behind. -/
def getArticleCommentsS (st : Storage) (articleId : Nat) :
    Storage × Option (List CommentWithAuthor) :=
  let comments :=
    (st.commentsData.filter (fun c => c.articleId == articleId)).mergeSort
      (fun a b => a.createdAt ≤ b.createdAt)
  (st, buildCommentTree st.usersData comments)

example :
    buildCommentTree [] [⟨1, "hi", 7, 3, none, 5⟩] =
      some [CommentWithAuthor.mk 1 "hi" 7 3 none 5 none none] := by
  rfl

example :
    buildCommentTreeDb [] [⟨1, "hi", 7, 3, none, 5⟩] =
      some [CommentWithAuthor.mk 1 "hi" 7 3 none 5 none (some [])] := by
  rfl

example :
    dbDeleteComment [⟨1, "a", 7, 3, none, 5⟩, ⟨2, "b", 7, 3, some 1, 6⟩,
      ⟨3, "c", 7, 3, some 2, 7⟩] 1 = some ([], true) := by
  rfl

example :
    memDeleteComment [⟨1, "a", 7, 3, none, 5⟩, ⟨2, "b", 7, 3, some 1, 6⟩] 1 =
      ([⟨2, "b", 7, 3, some 1, 6⟩], true) := by
  rfl

/-- Membership of a node anywhere in a forest: directly in the list, or
inside the `replies` of some node of the list, recursively. -/
inductive InForest (n : CommentWithAuthor) : List CommentWithAuthor → Prop
  | head {l : List CommentWithAuthor} : n ∈ l → InForest n l
  | nested {l : List CommentWithAuthor} {m : CommentWithAuthor}
      {rs : List CommentWithAuthor} :
      m ∈ l → m.replies = some rs → InForest n rs → InForest n l

theorem mapOption_eq_some_iff {f : α → Option β} :
    ∀ {l : List α} {r : List β},
      mapOption f l = some r ↔ List.Forall₂ (fun a b => f a = some b) l r := by
  intro l
  induction l with
  | nil =>
    intro r
    constructor
    · intro h
      simp only [mapOption] at h
      cases h
      exact List.Forall₂.nil
    · intro h
      cases h
      rfl
  | cons a l ih =>
    intro r
    constructor
    · intro h
      simp only [mapOption] at h
      cases hfa : f a with
      | none => rw [hfa] at h; exact absurd h (by simp)
      | some b =>
        rw [hfa] at h
        cases hrec : mapOption f l with
        | none => rw [hrec] at h; exact absurd h (by simp)
        | some bs =>
          rw [hrec] at h
          cases h
          exact List.Forall₂.cons hfa (ih.mp hrec)
    · intro h
      cases h with
      | cons hab htail =>
        simp only [mapOption, hab, ih.mpr htail]

theorem forall₂_mem_right {R : α → β → Prop} :
    ∀ {l : List α} {r : List β}, List.Forall₂ R l r → ∀ b ∈ r, ∃ a ∈ l, R a b := by
  intro l r h
  induction h with
  | nil => intro b hb; cases hb
  | cons hab _ ih =>
    intro b hb
    rcases List.mem_cons.mp hb with hb | hb
    · subst hb
      exact ⟨_, List.mem_cons_self _ _, hab⟩
    · obtain ⟨a, ha, har⟩ := ih b hb
      exact ⟨a, List.mem_cons_of_mem _ ha, har⟩

/-- The node that `buildTree` materializes for a comment `c`: all base
fields are copied and the author is the (possibly missing) map
lookup. -/
def NodeOf (us : List User) (c : Comment) (n : CommentWithAuthor) : Prop :=
  n.id = c.id ∧ n.content = c.content ∧ n.authorId = c.authorId ∧
    n.articleId = c.articleId ∧ n.parentId = c.parentId ∧
    n.createdAt = c.createdAt ∧ n.author = lookupUser us c.authorId

/-- Origin of every node of a forest produced by the in-memory
`buildTree` recursion: each node materializes a comment of the current
sibling list or of a deeper children list, its `replies` field is
absent exactly when that comment has no children, and the materialized
comment is either an element of the initial sibling list or a child of
some comment of the store. -/
theorem buildTreeAux_origin (us : List User) (all : List Comment) :
    ∀ fuel lst res, (∀ d ∈ lst, d ∈ all) →
      buildTreeAux us all fuel lst = some res →
      ∀ n, InForest n res →
        ∃ c, c ∈ all ∧ NodeOf us c n ∧
          (n.replies = none ↔ childrenOf all c.id = []) ∧
          (c ∈ lst ∨ ∃ p ∈ all, c.parentId = some p.id) := by
  intro fuel
  induction fuel with
  | zero => intro lst res _ h; simp [buildTreeAux] at h
  | succ fuel ih =>
    intro lst res hlst h n hn
    rw [buildTreeAux] at h
    have hfa := mapOption_eq_some_iff.mp h
    cases hn with
    | head hmem =>
      obtain ⟨c, hc, hfc⟩ := forall₂_mem_right hfa n hmem
      refine ⟨c, hlst c hc, ?_⟩
      by_cases hch : childrenOf all c.id = []
      · rw [if_pos hch] at hfc
        cases hfc
        exact ⟨⟨rfl, rfl, rfl, rfl, rfl, rfl, rfl⟩,
          by simp [CommentWithAuthor.replies, hch], Or.inl hc⟩
      · rw [if_neg hch] at hfc
        cases hrec : buildTreeAux us all fuel (childrenOf all c.id) with
        | none => rw [hrec] at hfc; exact absurd hfc (by simp)
        | some rs =>
          rw [hrec] at hfc
          simp only [Option.map_some', Option.some.injEq] at hfc
          subst hfc
          exact ⟨⟨rfl, rfl, rfl, rfl, rfl, rfl, rfl⟩,
            by simp [CommentWithAuthor.replies, hch], Or.inl hc⟩
    | nested hmem hrepl hin =>
      obtain ⟨c, hc, hfc⟩ := forall₂_mem_right hfa _ hmem
      by_cases hch : childrenOf all c.id = []
      · rw [if_pos hch] at hfc
        cases hfc
        simp [CommentWithAuthor.replies] at hrepl
      · rw [if_neg hch] at hfc
        cases hrec : buildTreeAux us all fuel (childrenOf all c.id) with
        | none => rw [hrec] at hfc; exact absurd hfc (by simp)
        | some rs' =>
          rw [hrec] at hfc
          simp only [Option.map_some', Option.some.injEq] at hfc
          subst hfc
          simp only [CommentWithAuthor.replies, Option.some.injEq] at hrepl
          subst hrepl
          have hkids : ∀ d ∈ childrenOf all c.id, d ∈ all := by
            intro d hd
            exact List.mem_of_mem_filter hd
          obtain ⟨c', hc', hnode, hrepl', hprov⟩ := ih _ _ hkids hrec n hin
          refine ⟨c', hc', hnode, hrepl', ?_⟩
          rcases hprov with hmem' | hex
          · have := List.of_mem_filter hmem'
            simp only [Bool.and_eq_true, beq_iff_eq] at this
            exact Or.inr ⟨c, hlst c hc, this.2⟩
          · exact Or.inr hex

/-- Origin of every node of a reply forest produced by
`DatabaseStorage.getCommentReplies`: each node materializes a comment
of the store, always carries a `replies` field, and its comment's
parent id is the id of some comment of the store (the recursion is only
ever entered at ids of materialized comments). -/
theorem getCommentReplies_origin (us : List User) (all : List Comment) :
    ∀ fuel pid res, (∃ p ∈ all, p.id = pid) →
      getCommentReplies us all fuel pid = some res →
      ∀ n, InForest n res →
        ∃ c, c ∈ all ∧ NodeOf us c n ∧ (∃ rs, n.replies = some rs) ∧
          (∃ p ∈ all, c.parentId = some p.id) := by
  intro fuel
  induction fuel with
  | zero => intro pid res _ h; simp [getCommentReplies] at h
  | succ fuel ih =>
    intro pid res hpid h n hn
    rw [getCommentReplies] at h
    have hfa := mapOption_eq_some_iff.mp h
    cases hn with
    | head hmem =>
      obtain ⟨c, hc, hfc⟩ := forall₂_mem_right hfa n hmem
      have hcall : c ∈ all := List.mem_of_mem_filter hc
      have hcpar : c.parentId = some pid := by
        have := List.of_mem_filter hc
        exact beq_iff_eq.mp this
      cases hrec : getCommentReplies us all fuel c.id with
      | none => rw [hrec] at hfc; exact absurd hfc (by simp)
      | some nested =>
        rw [hrec] at hfc
        simp only [Option.map_some', Option.some.injEq] at hfc
        subst hfc
        obtain ⟨p, hp, hpeq⟩ := hpid
        exact ⟨c, hcall, ⟨rfl, rfl, rfl, rfl, rfl, rfl, rfl⟩,
          ⟨nested, rfl⟩, ⟨p, hp, by rw [hcpar, hpeq]⟩⟩
    | nested hmem hrepl hin =>
      obtain ⟨c, hc, hfc⟩ := forall₂_mem_right hfa _ hmem
      have hcall : c ∈ all := List.mem_of_mem_filter hc
      cases hrec : getCommentReplies us all fuel c.id with
      | none => rw [hrec] at hfc; exact absurd hfc (by simp)
      | some nested =>
        rw [hrec] at hfc
        simp only [Option.map_some', Option.some.injEq] at hfc
        subst hfc
        simp only [CommentWithAuthor.replies, Option.some.injEq] at hrepl
        subst hrepl
        exact ih c.id nested ⟨c, hcall, rfl⟩ hrec n hin

/-- Origin of every node of the forest returned by
`DatabaseStorage.buildCommentTree`: each node materializes a comment of
the input, always carries a `replies` field (empty for leaves), and
that comment is a root (falsy `parentId`) or the child of some comment
of the input. -/
theorem buildCommentTreeDb_origin (us : List User) (cs : List Comment)
    (res : List CommentWithAuthor) (h : buildCommentTreeDb us cs = some res) :
    ∀ n, InForest n res →
      ∃ c, c ∈ cs ∧ NodeOf us c n ∧ (∃ rs, n.replies = some rs) ∧
        (truthyParent c = false ∨ ∃ p ∈ cs, c.parentId = some p.id) := by
  intro n hn
  rw [buildCommentTreeDb] at h
  have hfa := mapOption_eq_some_iff.mp h
  cases hn with
  | head hmem =>
    obtain ⟨c, hc, hfc⟩ := forall₂_mem_right hfa n hmem
    have hcall : c ∈ cs := List.mem_of_mem_filter hc
    have hcroot : truthyParent c = false := by
      have := List.of_mem_filter hc
      simpa using this
    cases hrec : getCommentReplies us cs (cs.length + 1) c.id with
    | none => rw [hrec] at hfc; exact absurd hfc (by simp)
    | some replies =>
      rw [hrec] at hfc
      simp only [Option.map_some', Option.some.injEq] at hfc
      subst hfc
      exact ⟨c, hcall, ⟨rfl, rfl, rfl, rfl, rfl, rfl, rfl⟩,
        ⟨replies, rfl⟩, Or.inl hcroot⟩
  | nested hmem hrepl hin =>
    obtain ⟨c, hc, hfc⟩ := forall₂_mem_right hfa _ hmem
    have hcall : c ∈ cs := List.mem_of_mem_filter hc
    cases hrec : getCommentReplies us cs (cs.length + 1) c.id with
    | none => rw [hrec] at hfc; exact absurd hfc (by simp)
    | some replies =>
      rw [hrec] at hfc
      simp only [Option.map_some', Option.some.injEq] at hfc
      subst hfc
      simp only [CommentWithAuthor.replies, Option.some.injEq] at hrepl
      subst hrepl
      obtain ⟨c', hc', hnode, hsome, hprov⟩ :=
        getCommentReplies_origin us cs (cs.length + 1) c.id replies
          ⟨c, hcall, rfl⟩ hrec n hin
      exact ⟨c', hc', hnode, hsome, Or.inr hprov⟩

/-- Chronological order on comments (the ascending `createdAt`
comparator of `getArticleComments`). -/
def timeLe (a b : Comment) : Prop := a.createdAt ≤ b.createdAt

/-- Chronological order on materialized nodes. -/
def nodeTimeLe (a b : CommentWithAuthor) : Prop := a.createdAt ≤ b.createdAt

theorem pairwise_transfer :
    ∀ {lst : List Comment} {res : List CommentWithAuthor},
      List.Forall₂ (fun c n => n.createdAt = c.createdAt) lst res →
      lst.Pairwise timeLe → res.Pairwise nodeTimeLe := by
  intro lst res h
  induction h with
  | nil => intro _; exact List.Pairwise.nil
  | cons hab htail ih =>
    intro hp
    rcases List.pairwise_cons.mp hp with ⟨hhead, htl⟩
    refine List.pairwise_cons.mpr ⟨?_, ih htl⟩
    intro n hn
    obtain ⟨c, hc, hceq⟩ := forall₂_mem_right htail n hn
    unfold nodeTimeLe
    rw [hab, hceq]
    exact hhead c hc

/-- Order preservation of the in-memory `buildTree` recursion: a
chronologically sorted sibling list materializes (over a
chronologically sorted store) to a chronologically sorted node list,
and every `replies` list anywhere in the forest is chronologically
sorted. -/
theorem buildTreeAux_sorted (us : List User) (all : List Comment)
    (hall : all.Pairwise timeLe) :
    ∀ fuel lst res, lst.Pairwise timeLe →
      buildTreeAux us all fuel lst = some res →
      res.Pairwise nodeTimeLe ∧
        ∀ n, InForest n res → ∀ rs, n.replies = some rs →
          rs.Pairwise nodeTimeLe := by
  intro fuel
  induction fuel with
  | zero => intro lst res _ h; simp [buildTreeAux] at h
  | succ fuel ih =>
    intro lst res hsorted h
    rw [buildTreeAux] at h
    have hfa := mapOption_eq_some_iff.mp h
    have hkids_pw : ∀ pid : Nat, (childrenOf all pid).Pairwise timeLe :=
      fun pid => List.Pairwise.sublist (List.filter_sublist all) hall
    constructor
    · refine pairwise_transfer (List.Forall₂.imp ?_ hfa) hsorted
      intro c n hfc
      by_cases hch : childrenOf all c.id = []
      · rw [if_pos hch] at hfc
        cases hfc
        rfl
      · rw [if_neg hch] at hfc
        cases hrec : buildTreeAux us all fuel (childrenOf all c.id) with
        | none => rw [hrec] at hfc; exact absurd hfc (by simp)
        | some rs =>
          rw [hrec] at hfc
          simp only [Option.map_some', Option.some.injEq] at hfc
          subst hfc
          rfl
    · intro n hn
      cases hn with
      | head hmem =>
        obtain ⟨c, _, hfc⟩ := forall₂_mem_right hfa n hmem
        by_cases hch : childrenOf all c.id = []
        · rw [if_pos hch] at hfc
          cases hfc
          intro rs hrs
          simp [CommentWithAuthor.replies] at hrs
        · rw [if_neg hch] at hfc
          cases hrec : buildTreeAux us all fuel (childrenOf all c.id) with
          | none => rw [hrec] at hfc; exact absurd hfc (by simp)
          | some rs' =>
            rw [hrec] at hfc
            simp only [Option.map_some', Option.some.injEq] at hfc
            subst hfc
            intro rs hrs
            simp only [CommentWithAuthor.replies, Option.some.injEq] at hrs
            subst hrs
            exact (ih _ _ (hkids_pw c.id) hrec).1
      | nested hmem hrepl hin =>
        obtain ⟨c, _, hfc⟩ := forall₂_mem_right hfa _ hmem
        by_cases hch : childrenOf all c.id = []
        · rw [if_pos hch] at hfc
          cases hfc
          simp [CommentWithAuthor.replies] at hrepl
        · rw [if_neg hch] at hfc
          cases hrec : buildTreeAux us all fuel (childrenOf all c.id) with
          | none => rw [hrec] at hfc; exact absurd hfc (by simp)
          | some rs' =>
            rw [hrec] at hfc
            simp only [Option.map_some', Option.some.injEq] at hfc
            subst hfc
            simp only [CommentWithAuthor.replies, Option.some.injEq] at hrepl
            subst hrepl
            exact (ih _ _ (hkids_pw c.id) hrec).2 n hin

/-- The subtree rooted at id `root` within store `s`: the comments with
that id, the comments whose `parentId` column is that id, and,
recursively, every comment of `s` whose parent lies in the subtree.
This is the set of rows `DatabaseStorage.deleteComment(root)`
cascades over. -/
inductive Subtree (s : List Comment) (root : Nat) : Comment → Prop
  | self {c : Comment} : c ∈ s → c.id = root → Subtree s root c
  | child {c : Comment} : c ∈ s → c.parentId = some root → Subtree s root c
  | step {p c : Comment} : Subtree s root p → c ∈ s →
      c.parentId = some p.id → Subtree s root c

theorem subtree_mono {s s' : List Comment} {root : Nat} {c : Comment}
    (hsub : ∀ x ∈ s', x ∈ s) (h : Subtree s' root c) : Subtree s root c := by
  induction h with
  | self hc hid => exact Subtree.self (hsub _ hc) hid
  | child hc hpar => exact Subtree.child (hsub _ hc) hpar
  | step _ hc hpar ih => exact Subtree.step ih (hsub _ hc) hpar

theorem subtree_lift {s : List Comment} {root : Nat} {d c : Comment}
    (hnd : (s.map Comment.id).Nodup) (hd : d ∈ s)
    (hdpar : d.parentId = some root) (h : Subtree s d.id c) :
    Subtree s root c := by
  induction h with
  | @self c' hc hid =>
    have : c' = d := List.inj_on_of_nodup_map hnd hc hd hid
    subst this
    exact Subtree.child hc hdpar
  | child hc hpar => exact Subtree.step (Subtree.child hd hdpar) hc hpar
  | step _ hc hpar ih => exact Subtree.step ih hc hpar

theorem subtree_decompose {s : List Comment} {root : Nat} {c : Comment}
    (h : Subtree s root c) :
    c.id = root ∨ ∃ d ∈ s, d.parentId = some root ∧ Subtree s d.id c := by
  induction h with
  | self _ hid => exact Or.inl hid
  | @child c' hc hpar => exact Or.inr ⟨c', hc, hpar, Subtree.self hc rfl⟩
  | @step p c' hp hc hpar ih =>
    rcases ih with hid | ⟨d, hd, hdpar, hsub⟩
    · exact Or.inr ⟨c', hc, by rw [hpar, hid], Subtree.self hc rfl⟩
    · exact Or.inr ⟨d, hd, hdpar, Subtree.step hsub hc hpar⟩

theorem runDeletes_sublist
    {del : List Comment → Nat → Option (List Comment × Bool)}
    (hdel : ∀ cs cid r, del cs cid = some r → r.1.Sublist cs) :
    ∀ l cs cs', runDeletes del cs l = some cs' → cs'.Sublist cs := by
  intro l
  induction l with
  | nil =>
    intro cs cs' h
    simp only [runDeletes] at h
    cases h
    exact List.Sublist.refl _
  | cons cid rest ih =>
    intro cs cs' h
    simp only [runDeletes] at h
    cases hdel1 : del cs cid with
    | none => rw [hdel1] at h; exact absurd h (by simp)
    | some r =>
      rw [hdel1] at h
      exact (ih r.1 cs' h).trans (hdel cs cid r hdel1)

theorem dbDeleteCommentAux_sublist :
    ∀ fuel cs cid r, dbDeleteCommentAux fuel cs cid = some r →
      r.1.Sublist cs := by
  intro fuel
  induction fuel with
  | zero => intro cs cid r h; simp [dbDeleteCommentAux] at h
  | succ fuel ih =>
    intro cs cid r h
    rw [dbDeleteCommentAux] at h
    cases hrun : runDeletes (fun cs' cid' => dbDeleteCommentAux fuel cs' cid') cs
        ((cs.filter (fun c => c.parentId == some cid)).map (fun c => c.id)) with
    | none => rw [hrun] at h; exact absurd h (by simp)
    | some cs2 =>
      rw [hrun] at h
      cases h
      exact (List.filter_sublist cs2).trans
        (runDeletes_sublist (fun cs' cid' r' h' => ih cs' cid' r' h') _ _ _ hrun)

theorem dbDeleteCommentAux_gone {fuel : Nat} {cs : List Comment} {cid : Nat}
    {r : List Comment × Bool} (h : dbDeleteCommentAux fuel cs cid = some r) :
    ∀ c ∈ r.1, c.id ≠ cid := by
  cases fuel with
  | zero => simp [dbDeleteCommentAux] at h
  | succ fuel =>
    rw [dbDeleteCommentAux] at h
    cases hrun : runDeletes (fun cs' cid' => dbDeleteCommentAux fuel cs' cid') cs
        ((cs.filter (fun c => c.parentId == some cid)).map (fun c => c.id)) with
    | none => rw [hrun] at h; exact absurd h (by simp)
    | some cs2 =>
      rw [hrun] at h
      cases h
      intro c hc
      have := List.of_mem_filter hc
      simpa using this

theorem runDeletes_removed
    {del : List Comment → Nat → Option (List Comment × Bool)}
    (hdel_sub : ∀ cs cid r, del cs cid = some r → r.1.Sublist cs)
    (hdel_rem : ∀ cs cid r, (cs.map Comment.id).Nodup → del cs cid = some r →
      ∀ c ∈ cs, c ∉ r.1 → Subtree cs cid c) :
    ∀ l cs cs', (cs.map Comment.id).Nodup → runDeletes del cs l = some cs' →
      ∀ c ∈ cs, c ∉ cs' → ∃ cid ∈ l, Subtree cs cid c := by
  intro l
  induction l with
  | nil =>
    intro cs cs' _ h c hc hnc
    simp only [runDeletes] at h
    cases h
    exact absurd hc hnc
  | cons cid rest ih =>
    intro cs cs' hnd h c hc hnc
    simp only [runDeletes] at h
    cases hdel1 : del cs cid with
    | none => rw [hdel1] at h; exact absurd h (by simp)
    | some r =>
      rw [hdel1] at h
      obtain ⟨cs1, b⟩ := r
      have hsub1 : cs1.Sublist cs := hdel_sub cs cid (cs1, b) hdel1
      by_cases hin : c ∈ cs1
      · have hnd1 : (cs1.map Comment.id).Nodup :=
          List.Nodup.sublist (hsub1.map Comment.id) hnd
        obtain ⟨cid', hcid', hsubtree⟩ := ih cs1 cs' hnd1 h c hin hnc
        exact ⟨cid', List.mem_cons_of_mem _ hcid',
          subtree_mono (fun x hx => hsub1.subset hx) hsubtree⟩
      · exact ⟨cid, List.mem_cons_self _ _,
          hdel_rem cs cid (cs1, b) hnd hdel1 c hc hin⟩

theorem dbDeleteCommentAux_removed :
    ∀ fuel cs cid r, (cs.map Comment.id).Nodup →
      dbDeleteCommentAux fuel cs cid = some r →
      ∀ c ∈ cs, c ∉ r.1 → Subtree cs cid c := by
  intro fuel
  induction fuel with
  | zero => intro cs cid r _ h; simp [dbDeleteCommentAux] at h
  | succ fuel ih =>
    intro cs cid r hnd h c hc hnc
    rw [dbDeleteCommentAux] at h
    cases hrun : runDeletes (fun cs' cid' => dbDeleteCommentAux fuel cs' cid') cs
        ((cs.filter (fun x => x.parentId == some cid)).map (fun x => x.id)) with
    | none => rw [hrun] at h; exact absurd h (by simp)
    | some cs2 =>
      rw [hrun] at h
      cases h
      by_cases hin : c ∈ cs2
      · have hid : c.id = cid := by
          by_contra hne
          exact hnc (List.mem_filter.mpr ⟨hin, by simpa using hne⟩)
        exact Subtree.self hc hid
      · obtain ⟨cid', hcid', hsubtree⟩ :=
          runDeletes_removed (fun cs' cid' r' h' =>
              dbDeleteCommentAux_sublist fuel cs' cid' r' h')
            (fun cs' cid' r' hnd' h' => ih cs' cid' r' hnd' h') _ cs cs2 hnd
            hrun c hc hin
        obtain ⟨d, hd, hdid⟩ := List.mem_map.mp hcid'
        have hdcs : d ∈ cs := List.mem_of_mem_filter hd
        have hdpar : d.parentId = some cid := by
          have := List.of_mem_filter hd
          exact beq_iff_eq.mp this
        exact subtree_lift hnd hdcs hdpar (hdid ▸ hsubtree)

theorem runDeletes_subtree
    {del : List Comment → Nat → Option (List Comment × Bool)}
    (hdel_sub : ∀ cs cid r, del cs cid = some r → r.1.Sublist cs)
    (hdel_rem : ∀ cs cid r, (cs.map Comment.id).Nodup → del cs cid = some r →
      ∀ c ∈ cs, c ∉ r.1 → Subtree cs cid c)
    (hdel_subt : ∀ cs cid r, (cs.map Comment.id).Nodup → del cs cid = some r →
      ∀ c, Subtree cs cid c → c ∉ r.1) :
    ∀ l cs cs', (cs.map Comment.id).Nodup → runDeletes del cs l = some cs' →
      ∀ cid ∈ l, ∀ c, Subtree cs cid c → c ∉ cs' := by
  intro l
  induction l with
  | nil => intro cs cs' _ _ cid hcid; cases hcid
  | cons cid1 rest ih =>
    intro cs cs' hnd h cid hcid c hsubtree
    simp only [runDeletes] at h
    cases hdel1 : del cs cid1 with
    | none => rw [hdel1] at h; exact absurd h (by simp)
    | some r =>
      rw [hdel1] at h
      obtain ⟨cs1, b⟩ := r
      have hsub1 : cs1.Sublist cs := hdel_sub cs cid1 (cs1, b) hdel1
      have hnd1 : (cs1.map Comment.id).Nodup :=
        List.Nodup.sublist (hsub1.map Comment.id) hnd
      have hcs' : cs'.Sublist cs1 :=
        runDeletes_sublist hdel_sub rest cs1 cs' h
      rcases List.mem_cons.mp hcid with hceq | hcrest
      · subst hceq
        exact fun hmem => hdel_subt cs cid (cs1, b) hnd hdel1 c hsubtree
          (hcs'.subset hmem)
      · have htrans : ∀ x, Subtree cs cid x →
            Subtree cs1 cid x ∨ Subtree cs cid1 x := by
          intro x hx
          induction hx with
          | @self c' hc' hid =>
            by_cases hin : c' ∈ cs1
            · exact Or.inl (Subtree.self hin hid)
            · exact Or.inr (hdel_rem cs cid1 (cs1, b) hnd hdel1 c' hc' hin)
          | @child c' hc' hpar =>
            by_cases hin : c' ∈ cs1
            · exact Or.inl (Subtree.child hin hpar)
            · exact Or.inr (hdel_rem cs cid1 (cs1, b) hnd hdel1 c' hc' hin)
          | @step p c' hp hc' hpar ihx =>
            rcases ihx with hl | hr
            · by_cases hin : c' ∈ cs1
              · exact Or.inl (Subtree.step hl hin hpar)
              · exact Or.inr (hdel_rem cs cid1 (cs1, b) hnd hdel1 c' hc' hin)
            · exact Or.inr (Subtree.step hr hc' hpar)
        rcases htrans c hsubtree with hl | hr
        · exact ih cs1 cs' hnd1 h cid hcrest c hl
        · exact fun hmem => hdel_subt cs cid1 (cs1, b) hnd hdel1 c hr
            (hcs'.subset hmem)

theorem dbDeleteCommentAux_subtree :
    ∀ fuel cs cid r, (cs.map Comment.id).Nodup →
      dbDeleteCommentAux fuel cs cid = some r →
      ∀ c, Subtree cs cid c → c ∉ r.1 := by
  intro fuel
  induction fuel with
  | zero => intro cs cid r _ h; simp [dbDeleteCommentAux] at h
  | succ fuel ih =>
    intro cs cid r hnd h c hsubtree
    rw [dbDeleteCommentAux] at h
    cases hrun : runDeletes (fun cs' cid' => dbDeleteCommentAux fuel cs' cid') cs
        ((cs.filter (fun x => x.parentId == some cid)).map (fun x => x.id)) with
    | none => rw [hrun] at h; exact absurd h (by simp)
    | some cs2 =>
      rw [hrun] at h
      cases h
      rcases subtree_decompose hsubtree with hid | ⟨d, hd, hdpar, hsub⟩
      · intro hmem
        have := List.of_mem_filter hmem
        simp only [bne_iff_ne, ne_eq] at this
        exact this hid
      · have hdid : d.id ∈
            (cs.filter (fun x => x.parentId == some cid)).map (fun x => x.id) :=
          List.mem_map.mpr ⟨d, List.mem_filter.mpr ⟨hd, by simpa using hdpar⟩, rfl⟩
        have hnot2 : c ∉ cs2 :=
          runDeletes_subtree (fun cs' cid' r' h' =>
              dbDeleteCommentAux_sublist fuel cs' cid' r' h')
            (fun cs' cid' r' hnd' h' =>
              dbDeleteCommentAux_removed fuel cs' cid' r' hnd' h')
            (fun cs' cid' r' hnd' h' => ih cs' cid' r' hnd' h') _ cs cs2 hnd
            hrun d.id hdid c hsub
        exact fun hmem => hnot2 (List.mem_of_mem_filter hmem)

theorem dbDeleteCommentAux_ret_false {fuel : Nat} {cs : List Comment}
    {cid : Nat} {r : List Comment × Bool}
    (h : dbDeleteCommentAux fuel cs cid = some r)
    (habsent : ∀ c ∈ cs, c.id ≠ cid) : r.2 = false := by
  cases fuel with
  | zero => simp [dbDeleteCommentAux] at h
  | succ fuel =>
    rw [dbDeleteCommentAux] at h
    cases hrun : runDeletes (fun cs' cid' => dbDeleteCommentAux fuel cs' cid') cs
        ((cs.filter (fun x => x.parentId == some cid)).map (fun x => x.id)) with
    | none => rw [hrun] at h; exact absurd h (by simp)
    | some cs2 =>
      rw [hrun] at h
      cases h
      have hsub2 : cs2.Sublist cs :=
        runDeletes_sublist (fun cs' cid' r' h' =>
          dbDeleteCommentAux_sublist fuel cs' cid' r' h') _ cs cs2 hrun
      simp only [List.any_eq_false]
      intro c hc
      simpa using habsent c (hsub2.subset hc)

theorem dbDeleteCommentAux_ret_true {fuel : Nat} {cs : List Comment}
    {cid : Nat} {r : List Comment × Bool} {root : Comment}
    (hnd : (cs.map Comment.id).Nodup)
    (h : dbDeleteCommentAux fuel cs cid = some r)
    (hroot : root ∈ cs) (hrootid : root.id = cid)
    (hacyc : ∀ d ∈ cs, d.parentId = some cid → ¬ Subtree cs d.id root) :
    r.2 = true := by
  cases fuel with
  | zero => simp [dbDeleteCommentAux] at h
  | succ fuel =>
    rw [dbDeleteCommentAux] at h
    cases hrun : runDeletes (fun cs' cid' => dbDeleteCommentAux fuel cs' cid') cs
        ((cs.filter (fun x => x.parentId == some cid)).map (fun x => x.id)) with
    | none => rw [hrun] at h; exact absurd h (by simp)
    | some cs2 =>
      rw [hrun] at h
      cases h
      have hin2 : root ∈ cs2 := by
        by_contra hnot
        obtain ⟨cid', hcid', hsubtree⟩ :=
          runDeletes_removed (fun cs' cid' r' h' =>
              dbDeleteCommentAux_sublist fuel cs' cid' r' h')
            (fun cs' cid' r' hnd' h' =>
              dbDeleteCommentAux_removed fuel cs' cid' r' hnd' h') _ cs cs2 hnd
            hrun root hroot hnot
        obtain ⟨d, hd, hdid⟩ := List.mem_map.mp hcid'
        have hdcs : d ∈ cs := List.mem_of_mem_filter hd
        have hdpar : d.parentId = some cid := by
          have := List.of_mem_filter hd
          exact beq_iff_eq.mp this
        exact hacyc d hdcs hdpar (hdid ▸ hsubtree)
      simp only [List.any_eq_true]
      exact ⟨root, hin2, by simpa using hrootid⟩

/-- C2 counterexample: in the `DatabaseStorage` variant a leaf comment
is materialized with `replies` present and equal to the empty list, not
absent. -/
theorem c2_db_leaf_has_empty_replies :
    buildCommentTreeDb [] [⟨1, "hi", 7, 3, none, 5⟩] =
      some [CommentWithAuthor.mk 1 "hi" 7 3 none 5 none (some [])] ∧
    (CommentWithAuthor.mk 1 "hi" 7 3 none 5 none (some [])).replies =
      some [] := by
  exact ⟨rfl, rfl⟩

/-- C2 (amended): in `MemStorage.buildCommentTree` a node's `replies`
field is absent exactly when its comment has no children in the input;
in `DatabaseStorage.buildCommentTree` every node, leaves included,
carries a (possibly empty) `replies` list. -/
theorem c2_leaf_replies (us : List User) (cs : List Comment)
    (t : List CommentWithAuthor) (td : List CommentWithAuthor)
    (h : buildCommentTree us cs = some t)
    (hd : buildCommentTreeDb us cs = some td) :
    (∀ n, InForest n t → (n.replies = none ↔ childrenOf cs n.id = [])) ∧
    (∀ n, InForest n td → ∃ rs, n.replies = some rs) := by
  constructor
  · intro n hn
    obtain ⟨c, _, hnode, hiff, _⟩ :=
      buildTreeAux_origin us cs (cs.length + 1)
        (cs.filter (fun c => !truthyParent c)) t
        (fun d hd' => List.mem_of_mem_filter hd') h n hn
    rw [hnode.1]
    exact hiff
  · intro n hn
    obtain ⟨c, _, _, hsome, _⟩ := buildCommentTreeDb_origin us cs td hd n hn
    exact hsome

/-- C2 witness: a two-element store evaluated concretely. -/
theorem c2_leaf_replies_witness :
    buildCommentTree [] [⟨1, "hi", 7, 3, none, 5⟩] =
      some [CommentWithAuthor.mk 1 "hi" 7 3 none 5 none none] ∧
    buildCommentTreeDb [] [⟨1, "hi", 7, 3, none, 5⟩] =
      some [CommentWithAuthor.mk 1 "hi" 7 3 none 5 none (some [])] ∧
    ((CommentWithAuthor.mk 1 "hi" 7 3 none 5 none none).replies = none ↔
      childrenOf [⟨1, "hi", 7, 3, none, 5⟩]
        (CommentWithAuthor.mk 1 "hi" 7 3 none 5 none none).id = []) := by
  refine ⟨rfl, rfl, ?_⟩
  exact (c2_leaf_replies [] [⟨1, "hi", 7, 3, none, 5⟩]
    [CommentWithAuthor.mk 1 "hi" 7 3 none 5 none none]
    [CommentWithAuthor.mk 1 "hi" 7 3 none 5 none (some [])] rfl rfl).1
    (CommentWithAuthor.mk 1 "hi" 7 3 none 5 none none)
    (InForest.head (List.mem_singleton.mpr rfl))

/-- C3: with an empty user store, the comment with `authorId = 42` has
no resolvable author, yet both tree builders succeed and silently
attach a missing author (the `author!` assertion of `MemStorage` and
the empty destructuring of `DatabaseStorage`) instead of propagating an
error. -/
theorem c3_missing_author_not_propagated :
    lookupUser [] 42 = none ∧
    buildCommentTree [] [⟨1, "hi", 42, 3, none, 5⟩] =
      some [CommentWithAuthor.mk 1 "hi" 42 3 none 5 none none] ∧
    buildCommentTreeDb [] [⟨1, "hi", 42, 3, none, 5⟩] =
      some [CommentWithAuthor.mk 1 "hi" 42 3 none 5 none (some [])] := by
  exact ⟨rfl, rfl, rfl⟩

/-- C4 counterexample: on an input whose two comments form a parent
cycle (1 ↦ 2 ↦ 1), both tree builders succeed with the empty forest —
no cycle is detected, no failure is signalled, and the two comments are
silently dropped. -/
theorem c4_cycle_not_detected :
    buildCommentTree []
      [⟨1, "A", 7, 3, some 2, 10⟩, ⟨2, "B", 7, 3, some 1, 20⟩] = some [] ∧
    buildCommentTreeDb []
      [⟨1, "A", 7, 3, some 2, 10⟩, ⟨2, "B", 7, 3, some 1, 20⟩] = some [] := by
  exact ⟨rfl, rfl⟩

/-- C4 (amended): tree assembly performs no cycle detection; comments
lying on a parent cycle are never roots, so an input all of whose
comments have truthy parents — in particular any pure parent cycle —
is assembled without any error signal into the empty forest, silently
omitting every comment. -/
theorem c4_cycle_silently_dropped (us : List User) (cs : List Comment)
    (hall : ∀ c ∈ cs, truthyParent c = true) :
    buildCommentTree us cs = some [] ∧ buildCommentTreeDb us cs = some [] := by
  have hfilter : cs.filter (fun c => !truthyParent c) = [] := by
    rw [List.filter_eq_nil_iff]
    intro c hc
    simp [hall c hc]
  constructor
  · rw [buildCommentTree, hfilter, buildTreeAux]
    rfl
  · rw [buildCommentTreeDb, hfilter]
    rfl

/-- C4 witness: the two-element parent cycle. -/
theorem c4_cycle_silently_dropped_witness :
    (∀ c ∈ [(⟨1, "A", 7, 3, some 2, 10⟩ : Comment), ⟨2, "B", 7, 3, some 1, 20⟩],
      truthyParent c = true) ∧
    buildCommentTree []
      [⟨1, "A", 7, 3, some 2, 10⟩, ⟨2, "B", 7, 3, some 1, 20⟩] = some [] := by
  refine ⟨by decide, ?_⟩
  exact (c4_cycle_silently_dropped []
    [⟨1, "A", 7, 3, some 2, 10⟩, ⟨2, "B", 7, 3, some 1, 20⟩] (by decide)).1

/-- C9: `MemStorage.getArticleComments` leaves the entire storage state
(users, articles, tags, article-tags, comments, bookmarks, follows and
all id counters) unchanged: the only reads are the comment filter/sort
over a fresh copy and the author lookups of the tree build. -/
theorem c9_getArticleComments_readonly (st : Storage) (articleId : Nat) :
    (getArticleCommentsS st articleId).1 = st := by
  rfl

/-- C10 counterexample: a comment whose `parentId` is `some 0` — a
non-null parent reference that matches no comment id of the input (ids
are assigned from 1) — is *not* omitted: `!comment.parentId` is true
for `0`, so both builders classify it as a top-level comment and
materialize it as a root of the output forest. -/
theorem c10_zero_parent_root :
    (⟨1, "Z", 7, 3, some 0, 10⟩ : Comment).parentId = some 0 ∧
    some (⟨1, "Z", 7, 3, some 0, 10⟩ : Comment).id ≠
      (⟨1, "Z", 7, 3, some 0, 10⟩ : Comment).parentId ∧
    buildCommentTree [] [⟨1, "Z", 7, 3, some 0, 10⟩] =
      some [CommentWithAuthor.mk 1 "Z" 7 3 (some 0) 10 none none] ∧
    buildCommentTreeDb [] [⟨1, "Z", 7, 3, some 0, 10⟩] =
      some [CommentWithAuthor.mk 1 "Z" 7 3 (some 0) 10 none (some [])] ∧
    InForest (CommentWithAuthor.mk 1 "Z" 7 3 (some 0) 10 none none)
      [CommentWithAuthor.mk 1 "Z" 7 3 (some 0) 10 none none] := by
  exact ⟨rfl, by decide, rfl, rfl,
    InForest.head (List.mem_singleton.mpr rfl)⟩

/-- C10 (amended): a comment whose `parentId` is truthy (non-null and
nonzero) and matches no comment id of the input appears nowhere in the
forest of either builder — no materialized node carries its
`(id, parentId)` pair — and the output can hold strictly fewer nodes
than the input; a non-null `parentId` of `0` is instead treated as
falsy and the comment becomes a root (see the counterexample). -/
theorem c10_orphans_omitted (us : List User) (cs : List Comment) (c : Comment)
    (hc : c ∈ cs) (htr : truthyParent c = true)
    (horph : ∀ p ∈ cs, some p.id ≠ c.parentId) :
    (∀ t, buildCommentTree us cs = some t → ∀ n, InForest n t →
      ¬(n.id = c.id ∧ n.parentId = c.parentId)) ∧
    (∀ t, buildCommentTreeDb us cs = some t → ∀ n, InForest n t →
      ¬(n.id = c.id ∧ n.parentId = c.parentId)) ∧
    buildCommentTree [] [⟨1, "R", 7, 3, none, 10⟩, ⟨2, "O", 7, 3, some 99, 20⟩] =
      some [CommentWithAuthor.mk 1 "R" 7 3 none 10 none none] ∧
    ([CommentWithAuthor.mk 1 "R" 7 3 none 10 none none].length <
      [(⟨1, "R", 7, 3, none, 10⟩ : Comment), ⟨2, "O", 7, 3, some 99, 20⟩].length) := by
  refine ⟨?_, ?_, rfl, by decide⟩
  · intro t h n hn ⟨hid, hpar⟩
    obtain ⟨c', _, hnode, _, hprov⟩ :=
      buildTreeAux_origin us cs (cs.length + 1)
        (cs.filter (fun x => !truthyParent x)) t
        (fun d hd' => List.mem_of_mem_filter hd') h n hn
    have hpareq : c'.parentId = c.parentId := by
      rw [← hnode.2.2.2.2.1, hpar]
    rcases hprov with hroot | ⟨p, hp, hppar⟩
    · have hfalse : truthyParent c' = false := by
        have := List.of_mem_filter hroot
        simpa using this
      rw [truthyParent, hpareq, ← truthyParent] at hfalse
      rw [htr] at hfalse
      exact absurd hfalse (by decide)
    · exact horph p hp (by rw [← hppar, hpareq])
  · intro t h n hn ⟨hid, hpar⟩
    obtain ⟨c', _, hnode, _, hprov⟩ := buildCommentTreeDb_origin us cs t h n hn
    have hpareq : c'.parentId = c.parentId := by
      rw [← hnode.2.2.2.2.1, hpar]
    rcases hprov with hroot | ⟨p, hp, hppar⟩
    · rw [truthyParent, hpareq, ← truthyParent] at hroot
      rw [htr] at hroot
      exact absurd hroot (by decide)
    · exact horph p hp (by rw [← hppar, hpareq])

/-- C5: over a store of one article's comments sorted ascending by
`createdAt` (as `getArticleComments` supplies them), the built forest
lists the root nodes in ascending `createdAt` order, and every node's
`replies` list is in ascending `createdAt` order. -/
theorem c5_build_sorted (us : List User) (cs : List Comment) (aid : Nat)
    (hart : ∀ c ∈ cs, c.articleId = aid) (hsorted : cs.Pairwise timeLe)
    (t : List CommentWithAuthor) (h : buildCommentTree us cs = some t) :
    t.Pairwise nodeTimeLe ∧
      ∀ n, InForest n t → ∀ rs, n.replies = some rs →
        rs.Pairwise nodeTimeLe := by
  exact buildTreeAux_sorted us cs hsorted (cs.length + 1)
    (cs.filter (fun c => !truthyParent c)) t
    (List.Pairwise.sublist (List.filter_sublist cs) hsorted) h

/-- C5 witness: a sorted three-comment thread. -/
theorem c5_build_sorted_witness :
    (∀ c ∈ [(⟨1, "A", 7, 3, none, 10⟩ : Comment), ⟨2, "B", 7, 3, some 1, 20⟩,
        ⟨3, "C", 7, 3, none, 30⟩], c.articleId = 3) ∧
    ([(⟨1, "A", 7, 3, none, 10⟩ : Comment), ⟨2, "B", 7, 3, some 1, 20⟩,
      ⟨3, "C", 7, 3, none, 30⟩].Pairwise timeLe) ∧
    ([CommentWithAuthor.mk 1 "A" 7 3 none 10 none
        (some [CommentWithAuthor.mk 2 "B" 7 3 (some 1) 20 none none]),
      CommentWithAuthor.mk 3 "C" 7 3 none 30 none none].Pairwise nodeTimeLe) := by
  refine ⟨by decide, by simp [timeLe], ?_⟩
  exact (c5_build_sorted [] [⟨1, "A", 7, 3, none, 10⟩, ⟨2, "B", 7, 3, some 1, 20⟩,
    ⟨3, "C", 7, 3, none, 30⟩] 3 (by decide) (by simp [timeLe]) _ rfl).1

/-- C7: a create-comment request whose (truthy) `parentId` resolves to
a comment of a different article than the target article is answered
with status 400 and leaves the entire storage — in particular the
comment store — unchanged: the handler returns before
`storage.createComment` runs. -/
theorem c7_cross_article_rejected (st : Storage) (now aid uid : Nat)
    (content : String) (pid : Nat) (art : Article) (parent : Comment)
    (hart : getArticleById st aid = some art) (hpid : pid ≠ 0)
    (hparent : st.commentsData.find? (fun c => some c.id == some pid) =
      some parent)
    (hmismatch : parent.articleId ≠ aid) :
    postComment st now aid uid content (some pid) = (st, ⟨400, none⟩) := by
  rw [postComment, hart]
  have htr : truthyOpt (some pid) = true := by simp [truthyOpt, hpid]
  rw [htr]
  simp only [if_true, hparent]
  have : (parent.articleId != aid) = true := by simp [hmismatch]
  rw [this]
  simp

/-- C7 witness: article 1 exists, comment 5 lives on article 2, a
request on article 1 citing parent 5 is rejected with 400. -/
theorem c7_cross_article_rejected_witness :
    (getArticleById
        ⟨[], [⟨1, "t", "c", "e", none, 7, true, 4, 0, 0⟩], [], [],
          [⟨5, "x", 7, 2, none, 0⟩], [], [], 1, 2, 1, 6, 1⟩ 1 =
      some ⟨1, "t", "c", "e", none, 7, true, 4, 0, 0⟩) ∧
    postComment
        ⟨[], [⟨1, "t", "c", "e", none, 7, true, 4, 0, 0⟩], [], [],
          [⟨5, "x", 7, 2, none, 0⟩], [], [], 1, 2, 1, 6, 1⟩ 9 1 7 "hi"
        (some 5) =
      (⟨[], [⟨1, "t", "c", "e", none, 7, true, 4, 0, 0⟩], [], [],
        [⟨5, "x", 7, 2, none, 0⟩], [], [], 1, 2, 1, 6, 1⟩, ⟨400, none⟩) := by
  refine ⟨rfl, ?_⟩
  exact c7_cross_article_rejected
    ⟨[], [⟨1, "t", "c", "e", none, 7, true, 4, 0, 0⟩], [], [],
      [⟨5, "x", 7, 2, none, 0⟩], [], [], 1, 2, 1, 6, 1⟩ 9 1 7 "hi" 5
    ⟨1, "t", "c", "e", none, 7, true, 4, 0, 0⟩ ⟨5, "x", 7, 2, none, 0⟩
    rfl (by decide) rfl (by decide)

/-- C8 counterexample: a request with `parentId = 0` — an id that
resolves to no comment, since ids are assigned from 1 — is *not*
rejected: `if (parentId)` is false for `0`, the parent checks are
skipped, and a comment with `parentId = 0` is persisted with
status 201. -/
theorem c8_zero_parent_bypasses_check :
    postComment
        ⟨[], [⟨3, "t", "c", "e", none, 7, true, 4, 0, 0⟩], [], [], [], [], [],
          1, 4, 1, 1, 1⟩ 9 3 7 "x" (some 0) =
      (⟨[], [⟨3, "t", "c", "e", none, 7, true, 4, 0, 0⟩], [], [],
        [⟨1, "x", 7, 3, some 0, 9⟩], [], [], 1, 4, 1, 2, 1⟩,
        ⟨201, some ⟨1, "x", 7, 3, some 0, 9⟩⟩) ∧
    ([] : List Comment).find? (fun c => some c.id == some 0) = none := by
  exact ⟨rfl, rfl⟩

/-- C8 (amended): a create-comment request whose `parentId` is truthy
(non-null and non-zero) and resolves to no stored comment is answered
with status 404 and the entire storage is left unchanged; a `parentId`
of `0` bypasses the parent checks (see the counterexample). -/
theorem c8_missing_parent_rejected (st : Storage) (now aid uid : Nat)
    (content : String) (pid : Nat) (art : Article)
    (hart : getArticleById st aid = some art) (hpid : pid ≠ 0)
    (hmiss : st.commentsData.find? (fun c => some c.id == some pid) = none) :
    postComment st now aid uid content (some pid) = (st, ⟨404, none⟩) := by
  rw [postComment, hart]
  have htr : truthyOpt (some pid) = true := by simp [truthyOpt, hpid]
  rw [htr]
  simp only [if_true, hmiss]

/-- C8 witness: parent id 5 absent from an empty comment store. -/
theorem c8_missing_parent_rejected_witness :
    (getArticleById
        ⟨[], [⟨3, "t", "c", "e", none, 7, true, 4, 0, 0⟩], [], [], [], [], [],
          1, 4, 1, 1, 1⟩ 3 =
      some ⟨3, "t", "c", "e", none, 7, true, 4, 0, 0⟩) ∧
    postComment
        ⟨[], [⟨3, "t", "c", "e", none, 7, true, 4, 0, 0⟩], [], [], [], [], [],
          1, 4, 1, 1, 1⟩ 9 3 7 "x" (some 5) =
      (⟨[], [⟨3, "t", "c", "e", none, 7, true, 4, 0, 0⟩], [], [], [], [], [],
        1, 4, 1, 1, 1⟩, ⟨404, none⟩) := by
  refine ⟨rfl, ?_⟩
  exact c8_missing_parent_rejected
    ⟨[], [⟨3, "t", "c", "e", none, 7, true, 4, 0, 0⟩], [], [], [], [], [],
      1, 4, 1, 1, 1⟩ 9 3 7 "x" 5 ⟨3, "t", "c", "e", none, 7, true, 4, 0, 0⟩
    rfl (by decide) rfl

/-- C1 counterexample: `MemStorage.deleteComment` does not cascade — on
a store holding comment 1 and its child 2, deleting 1 returns `true`
but the descendant 2 remains in the store. -/
theorem c1_mem_delete_no_cascade :
    memDeleteComment [⟨1, "A", 7, 3, none, 10⟩, ⟨2, "B", 7, 3, some 1, 20⟩] 1 =
      ([⟨2, "B", 7, 3, some 1, 20⟩], true) ∧
    ((⟨2, "B", 7, 3, some 1, 20⟩ : Comment) ∈
      (memDeleteComment [⟨1, "A", 7, 3, none, 10⟩,
        ⟨2, "B", 7, 3, some 1, 20⟩] 1).1) := by
  exact ⟨rfl, by decide⟩

/-- C1 (amended): `DatabaseStorage.deleteComment` removes the comment
together with its entire subtree — over a store with no duplicate ids
it removes exactly the subtree of the target id — and returns `false`
when no comment has the target id, `true` when the target exists and is
not its own descendant; `MemStorage.deleteComment` removes only the
entry with the given id, keeps every other comment (descendants
included), and returns whether that id was present. -/
theorem c1_delete_cascade (cs cs' : List Comment) (cid : Nat) (b : Bool)
    (hnd : (cs.map Comment.id).Nodup)
    (h : dbDeleteComment cs cid = some (cs', b)) :
    (∀ c, Subtree cs cid c → c ∉ cs') ∧
    (∀ c ∈ cs, c ∉ cs' → Subtree cs cid c) ∧
    ((∀ c ∈ cs, c.id ≠ cid) → b = false) ∧
    (∀ root ∈ cs, root.id = cid →
      (∀ d ∈ cs, d.parentId = some cid → ¬ Subtree cs d.id root) →
      b = true) ∧
    (∀ ms (mid : Nat) c, c ∈ ms → c.id ≠ mid →
      c ∈ (memDeleteComment ms mid).1) ∧
    (∀ ms (mid : Nat),
      (memDeleteComment ms mid).2 = true ↔ ∃ c ∈ ms, c.id = mid) := by
  refine ⟨?_, ?_, ?_, ?_, ?_, ?_⟩
  · intro c hsubtree
    exact dbDeleteCommentAux_subtree (cs.length + 1) cs cid (cs', b) hnd h c
      hsubtree
  · intro c hc hnc
    exact dbDeleteCommentAux_removed (cs.length + 1) cs cid (cs', b) hnd h c
      hc hnc
  · intro habsent
    exact dbDeleteCommentAux_ret_false h habsent
  · intro root hroot hrootid hacyc
    exact dbDeleteCommentAux_ret_true hnd h hroot hrootid hacyc
  · intro ms mid c hc hne
    simp only [memDeleteComment]
    exact List.mem_filter.mpr ⟨hc, by simpa using hne⟩
  · intro ms mid
    simp only [memDeleteComment, List.any_eq_true, beq_iff_eq]

/-- C1 witness: cascading delete of the two-comment chain 1 → 2. -/
theorem c1_delete_cascade_witness :
    (([(⟨1, "A", 7, 3, none, 10⟩ : Comment),
      ⟨2, "B", 7, 3, some 1, 20⟩].map Comment.id).Nodup) ∧
    dbDeleteComment [⟨1, "A", 7, 3, none, 10⟩, ⟨2, "B", 7, 3, some 1, 20⟩] 1 =
      some ([], true) ∧
    (∀ c, Subtree [(⟨1, "A", 7, 3, none, 10⟩ : Comment),
        ⟨2, "B", 7, 3, some 1, 20⟩] 1 c → c ∉ ([] : List Comment)) := by
  refine ⟨by decide, rfl, ?_⟩
  exact (c1_delete_cascade [⟨1, "A", 7, 3, none, 10⟩, ⟨2, "B", 7, 3, some 1, 20⟩]
    [] 1 true (by decide) rfl).1

theorem buildTreeAux_single_leaf (us : List User) (all : List Comment)
    (fuel : Nat) (c : Comment) (hch : childrenOf all c.id = []) :
    buildTreeAux us all (fuel + 1) [c] =
      some [CommentWithAuthor.mk c.id c.content c.authorId c.articleId
        c.parentId c.createdAt (lookupUser us c.authorId) none] := by
  rw [buildTreeAux]
  simp [mapOption, hch]

theorem buildTreeAux_single_node (us : List User) (all : List Comment)
    (fuel : Nat) (c : Comment) (kids : List Comment)
    (rs : List CommentWithAuthor) (hch : childrenOf all c.id = kids)
    (hne : kids ≠ []) (hrec : buildTreeAux us all fuel kids = some rs) :
    buildTreeAux us all (fuel + 1) [c] =
      some [CommentWithAuthor.mk c.id c.content c.authorId c.articleId
        c.parentId c.createdAt (lookupUser us c.authorId) (some rs)] := by
  rw [buildTreeAux]
  simp [mapOption, hch, hne, hrec]

/-- C6: a four-comment parent chain A → B → C → D (distinct nonzero
ids, A a root, each next comment the child of the previous one, all on
one article) is built into exactly one root node for A whose `replies`
nest B, then C, then D, with D a leaf (no `replies`). -/
theorem c6_chain_depth (us : List User) (A B C D : Comment)
    (hA : A.parentId = none) (hB : B.parentId = some A.id)
    (hC : C.parentId = some B.id) (hD : D.parentId = some C.id)
    (hA0 : A.id ≠ 0) (hB0 : B.id ≠ 0) (hC0 : C.id ≠ 0)
    (hAB : A.id ≠ B.id) (hAC : A.id ≠ C.id) (hAD : A.id ≠ D.id)
    (hBC : B.id ≠ C.id) (hBD : B.id ≠ D.id) (hCD : C.id ≠ D.id)
    (hartB : B.articleId = A.articleId) (hartC : C.articleId = A.articleId)
    (hartD : D.articleId = A.articleId) :
    buildCommentTree us [A, B, C, D] =
      some [CommentWithAuthor.mk A.id A.content A.authorId A.articleId
        A.parentId A.createdAt (lookupUser us A.authorId)
        (some [CommentWithAuthor.mk B.id B.content B.authorId B.articleId
          B.parentId B.createdAt (lookupUser us B.authorId)
          (some [CommentWithAuthor.mk C.id C.content C.authorId C.articleId
            C.parentId C.createdAt (lookupUser us C.authorId)
            (some [CommentWithAuthor.mk D.id D.content D.authorId D.articleId
              D.parentId D.createdAt (lookupUser us D.authorId) none])])])] := by
  have hchA : childrenOf [A, B, C, D] A.id = [B] := by
    simp [childrenOf, truthyParent, truthyOpt, hA, hB, hC, hD, hA0, hB0, hC0,
      hAB, hAC, hAD, hBC, hBD, hCD, Ne.symm hAB, Ne.symm hAC, Ne.symm hAD,
      Ne.symm hBC, Ne.symm hBD, Ne.symm hCD]
  have hchB : childrenOf [A, B, C, D] B.id = [C] := by
    simp [childrenOf, truthyParent, truthyOpt, hA, hB, hC, hD, hA0, hB0, hC0,
      hAB, hAC, hAD, hBC, hBD, hCD, Ne.symm hAB, Ne.symm hAC, Ne.symm hAD,
      Ne.symm hBC, Ne.symm hBD, Ne.symm hCD]
  have hchC : childrenOf [A, B, C, D] C.id = [D] := by
    simp [childrenOf, truthyParent, truthyOpt, hA, hB, hC, hD, hA0, hB0, hC0,
      hAB, hAC, hAD, hBC, hBD, hCD, Ne.symm hAB, Ne.symm hAC, Ne.symm hAD,
      Ne.symm hBC, Ne.symm hBD, Ne.symm hCD]
  have hchD : childrenOf [A, B, C, D] D.id = [] := by
    simp [childrenOf, truthyParent, truthyOpt, hA, hB, hC, hD, hA0, hB0, hC0,
      hAB, hAC, hAD, hBC, hBD, hCD, Ne.symm hAB, Ne.symm hAC, Ne.symm hAD,
      Ne.symm hBC, Ne.symm hBD, Ne.symm hCD]
  have bA : (A.id != 0) = true := by simp [hA0]
  have bB : (B.id != 0) = true := by simp [hB0]
  have bC : (C.id != 0) = true := by simp [hC0]
  have hroots : [A, B, C, D].filter (fun c => !truthyParent c) = [A] := by
    simp [List.filter, truthyParent, truthyOpt, hA, hB, hC, hD, bA, bB, bC]
  have hD' := buildTreeAux_single_leaf us [A, B, C, D] 1 D hchD
  have hC' := buildTreeAux_single_node us [A, B, C, D] (1 + 1) C [D] _ hchC
    (by simp) hD'
  have hB' := buildTreeAux_single_node us [A, B, C, D] (1 + 1 + 1) B [C] _ hchB
    (by simp) hC'
  have hA' := buildTreeAux_single_node us [A, B, C, D] (1 + 1 + 1 + 1) A [B] _
    hchA (by simp) hB'
  rw [buildCommentTree, hroots]
  exact hA'

/-- C6 witness: the concrete chain 1 → 2 → 3 → 4. -/
theorem c6_chain_depth_witness :
    ((⟨1, "A", 7, 3, none, 10⟩ : Comment).parentId = none ∧
      (⟨2, "B", 7, 3, some 1, 20⟩ : Comment).parentId =
        some (⟨1, "A", 7, 3, none, 10⟩ : Comment).id) ∧
    buildCommentTree [] [⟨1, "A", 7, 3, none, 10⟩, ⟨2, "B", 7, 3, some 1, 20⟩,
        ⟨3, "C", 7, 3, some 2, 30⟩, ⟨4, "D", 7, 3, some 3, 40⟩] =
      some [CommentWithAuthor.mk 1 "A" 7 3 none 10 none
        (some [CommentWithAuthor.mk 2 "B" 7 3 (some 1) 20 none
          (some [CommentWithAuthor.mk 3 "C" 7 3 (some 2) 30 none
            (some [CommentWithAuthor.mk 4 "D" 7 3 (some 3) 40 none
              none])])])] := by
  refine ⟨⟨rfl, rfl⟩, ?_⟩
  exact c6_chain_depth [] ⟨1, "A", 7, 3, none, 10⟩ ⟨2, "B", 7, 3, some 1, 20⟩
    ⟨3, "C", 7, 3, some 2, 30⟩ ⟨4, "D", 7, 3, some 3, 40⟩ rfl rfl rfl rfl
    (by decide) (by decide) (by decide) (by decide) (by decide) (by decide)
    (by decide) (by decide) (by decide) rfl rfl rfl

/-- C10 witness: the concrete orphan (parent id 99 absent). -/
theorem c10_orphans_omitted_witness :
    ((⟨2, "O", 7, 3, some 99, 20⟩ : Comment) ∈
      [(⟨1, "R", 7, 3, none, 10⟩ : Comment), ⟨2, "O", 7, 3, some 99, 20⟩]) ∧
    truthyParent ⟨2, "O", 7, 3, some 99, 20⟩ = true ∧
    (∀ t, buildCommentTree []
        [⟨1, "R", 7, 3, none, 10⟩, ⟨2, "O", 7, 3, some 99, 20⟩] = some t →
      ∀ n, InForest n t →
        ¬(n.id = (⟨2, "O", 7, 3, some 99, 20⟩ : Comment).id ∧
          n.parentId = (⟨2, "O", 7, 3, some 99, 20⟩ : Comment).parentId)) := by
  refine ⟨by decide, by decide, ?_⟩
  exact (c10_orphans_omitted []
    [⟨1, "R", 7, 3, none, 10⟩, ⟨2, "O", 7, 3, some 99, 20⟩]
    ⟨2, "O", 7, 3, some 99, 20⟩ (by decide) (by decide) (by decide)).1

example :
    buildCommentTree [⟨7, "u", "p", "n", "e", "user", none, none, 0⟩]
      [⟨1, "hi", 7, 3, none, 5⟩, ⟨2, "re", 7, 3, some 1, 6⟩] =
      some [CommentWithAuthor.mk 1 "hi" 7 3 none 5
        (some ⟨7, "u", "p", "n", "e", "user", none, none, 0⟩)
        (some [CommentWithAuthor.mk 2 "re" 7 3 (some 1) 6
          (some ⟨7, "u", "p", "n", "e", "user", none, none, 0⟩) none])] := by
  rfl
